import Mathlib

/-!
Shallow embedding of src/main.py of the prometheus-dora-metrics-exporter
repository, a GitHub DORA metrics exporter.  The three calculators
(calculate_deployment_counter, calculate_lead_time_for_changes,
calculate_mttr), the pagination loops of the two fetchers and the
update_metrics cycle are translated into pure Lean functions.

Modelling conventions:
* JSON records become structures holding exactly the fields the code reads.
* Timestamps stay raw strings, as in the JSON.  parse_ts models
  datetime.strptime with format %Y-%m-%dT%H:%M:%SZ followed by the proleptic
  Gregorian calendar arithmetic of datetime subtraction: it accepts the
  fixed-width zero-padded form the GitHub API emits and returns the number of
  seconds since 0001-01-01T00:00:00.  Python would also accept digit groups
  that are not zero padded; such strings never occur in the claims and are
  treated as unparseable here.  parse_ts returning none models strptime
  raising ValueError.
* The raw string comparisons of calculate_mttr (previous_failures and max on
  updated_at) are modelled by str_lt, code-point lexicographic order, which
  is exactly Python string comparison.
* Prometheus gauge values are modelled as exact rationals; gauge label sets
  become the fields of GaugeState.  Gauge.set is overwrite semantics.
* A Python function that can raise becomes a function into Except Unit.
  update_metrics models one body of the main loop: the try block plus the
  handler that keeps the state already written when a calculator raises.
* Pagination is modelled by a list of page outcomes: each element is either a
  fetched page or a transport error, mirroring one response.get of the while
  loop.  fetch_pages folds them exactly as the loop does: extend on success,
  break (keeping the accumulated items) on RequestException.
-/

/-- Branch keys tracked by the exporter: the dictionaries in the source are
keyed by the strings dev, staging and prod. -/
inductive BranchKey : Type
  | dev
  | staging
  | prod
deriving DecidableEq

/-- A commit record, with the two fields the code reads: commit sha and the
raw timestamp string commit.commit.author.date. -/
structure Commit : Type where
  sha : String
  date : String
deriving DecidableEq

/-- A workflow run record, with the five fields the code reads. -/
structure Run : Type where
  head_sha : String
  path : String
  conclusion : String
  head_branch : String
  updated_at : String
deriving DecidableEq

/-- A table with one entry per tracked branch, mirroring the source
dictionaries that are initialised with the three keys dev, staging, prod. -/
structure PerBranch (α : Type) : Type where
  dev : α
  staging : α
  prod : α
deriving DecidableEq

/-- Dictionary lookup in a per-branch table. -/
def PerBranch.get {α : Type} (p : PerBranch α) : BranchKey → α
  | BranchKey.dev => p.dev
  | BranchKey.staging => p.staging
  | BranchKey.prod => p.prod

/-- Dictionary update of one branch entry. -/
def PerBranch.set {α : Type} (p : PerBranch α) : BranchKey → α → PerBranch α
  | BranchKey.dev, a => { p with dev := a }
  | BranchKey.staging, a => { p with staging := a }
  | BranchKey.prod, a => { p with prod := a }

/-- Table holding the same value for every branch. -/
def PerBranch.const {α : Type} (a : α) : PerBranch α := ⟨a, a, a⟩

/-- Apply a function to every entry of a per-branch table. -/
def PerBranch.map {α β : Type} (f : α → β) (p : PerBranch α) : PerBranch β :=
  ⟨f p.dev, f p.staging, f p.prod⟩

/-- Numeric value of a decimal digit character, none otherwise. -/
def digitVal (c : Char) : Option Nat :=
  if c.isDigit then some (c.toNat - 48) else none

/-- Two-digit decimal group. -/
def nat2 (a b : Char) : Option Nat := do
  let x ← digitVal a
  let y ← digitVal b
  some (10 * x + y)

/-- Four-digit decimal group. -/
def nat4 (a b c d : Char) : Option Nat := do
  let x ← nat2 a b
  let y ← nat2 c d
  some (100 * x + y)

/-- Gregorian leap year rule, as in the datetime module. -/
def isLeapYear (y : Nat) : Bool :=
  y % 4 == 0 && (y % 100 != 0 || y % 400 == 0)

/-- Number of days of a month of a given year. -/
def daysInMonth (y m : Nat) : Nat :=
  if m = 2 then (if isLeapYear y then 29 else 28)
  else if m = 4 ∨ m = 6 ∨ m = 9 ∨ m = 11 then 30
  else 31

/-- Days of the given year that precede the first day of month m. -/
def daysBeforeMonth (y m : Nat) : Nat :=
  (List.range (m - 1)).foldl (fun acc i => acc + daysInMonth y (i + 1)) 0

/-- Days of the proleptic Gregorian calendar before January first of year y,
counted from year one, as in datetime.toordinal. -/
def daysBeforeYear (y : Nat) : Nat :=
  (y - 1) * 365 + (y - 1) / 4 - (y - 1) / 100 + (y - 1) / 400

/-- Seconds since 0001-01-01T00:00:00 of a calendar date and time. -/
def toSecs (y m d hh mm ss : Nat) : Nat :=
  (((daysBeforeYear y + daysBeforeMonth y m + (d - 1)) * 24 + hh) * 60 + mm) * 60 + ss

/-- Model of datetime.strptime with format %Y-%m-%dT%H:%M:%SZ composed with
conversion to seconds: some total-seconds value when the string parses,
none when strptime would raise ValueError. -/
def parse_ts (s : String) : Option Nat :=
  match s.data with
  | [y1, y2, y3, y4, sep1, m1, m2, sep2, d1, d2, sep3, h1, h2, sep4, n1, n2, sep5, s1, s2, sep6] =>
    if sep1 = '-' ∧ sep2 = '-' ∧ sep3 = 'T' ∧ sep4 = ':' ∧ sep5 = ':' ∧ sep6 = 'Z' then do
      let y ← nat4 y1 y2 y3 y4
      let m ← nat2 m1 m2
      let d ← nat2 d1 d2
      let hh ← nat2 h1 h2
      let mm ← nat2 n1 n2
      let ss ← nat2 s1 s2
      if 1 ≤ y ∧ 1 ≤ m ∧ m ≤ 12 ∧ 1 ≤ d ∧ d ≤ daysInMonth y m ∧ hh ≤ 23 ∧ mm ≤ 59 ∧ ss ≤ 59 then
        some (toSecs y m d hh mm ss)
      else none
    else none
  | _ => none

/-- Lexicographic comparison of character lists by code point. -/
def str_lt_go : List Char → List Char → Bool
  | [], [] => false
  | [], _ :: _ => true
  | _ :: _, [] => false
  | x :: xs, y :: ys =>
    if x.toNat < y.toNat then true
    else if y.toNat < x.toNat then false
    else str_lt_go xs ys

/-- Python string comparison: strict lexicographic order on code points.
calculate_mttr compares the raw updated_at strings with it. -/
def str_lt (a b : String) : Bool := str_lt_go a.data b.data

/-- The three workflow paths of the membership test in
calculate_deployment_counter. -/
def tracked_paths : List String :=
  [".github/workflows/dev.yml", ".github/workflows/staging.yml", ".github/workflows/prod.yml"]

/-- The branch_paths dictionary of calculate_lead_time_for_changes: workflow
path to branch key, none for a path outside the table. -/
def branch_paths (p : String) : Option BranchKey :=
  if p = ".github/workflows/dev.yml" then some BranchKey.dev
  else if p = ".github/workflows/staging.yml" then some BranchKey.staging
  else if p = ".github/workflows/prod.yml" then some BranchKey.prod
  else none

/-- Membership of a branch name string among the dictionary keys dev,
staging, prod, returning the branch key. -/
def branch_key (s : String) : Option BranchKey :=
  if s = "dev" then some BranchKey.dev
  else if s = "staging" then some BranchKey.staging
  else if s = "prod" then some BranchKey.prod
  else none

/-- One success and failure tally, one entry of deployment_stats. -/
structure DeployCounts : Type where
  success : Nat
  failure : Nat
deriving DecidableEq

/-- One iteration of the deployment loop of calculate_deployment_counter:
if the path is one of the three tracked workflow paths, and head_branch is a
dictionary key, and the conclusion is a key of the inner dictionary, the
matching counter is incremented. -/
def countRun (acc : PerBranch DeployCounts) (r : Run) : PerBranch DeployCounts :=
  if r.path ∈ tracked_paths then
    match branch_key r.head_branch with
    | some b =>
      if r.conclusion = "success" then
        acc.set b ⟨(acc.get b).success + 1, (acc.get b).failure⟩
      else if r.conclusion = "failure" then
        acc.set b ⟨(acc.get b).success, (acc.get b).failure + 1⟩
      else acc
    | none => acc
  else acc

/-- The deployment_stats dictionary computed by the first loop of
calculate_deployment_counter. -/
def deployment_stats (runs : List Run) : PerBranch DeployCounts :=
  runs.foldl countRun (PerBranch.const ⟨0, 0⟩)

/-- The inner deployment loop of calculate_lead_time_for_changes for one
commit with sha and already-parsed author time t: find the first run with
conclusion success and a path in the branch_paths table whose head_sha equals
the commit sha, parse its updated_at and return the branch together with the
lead time; error models strptime raising on updated_at. -/
def lead_scan (sha : String) (t : Nat) : List Run → Except Unit (Option (BranchKey × Int))
  | [] => Except.ok none
  | r :: rest =>
    match branch_paths r.path with
    | some b =>
      if r.conclusion = "success" then
        if sha = r.head_sha then
          match parse_ts r.updated_at with
          | some tr => Except.ok (some (b, (tr : Int) - (t : Int)))
          | none => Except.error ()
        else lead_scan sha t rest
      else lead_scan sha t rest
    | none => lead_scan sha t rest

/-- One iteration of the outer commit loop of
calculate_lead_time_for_changes: the commit date is parsed first (strptime
raises on a malformed date before any run is examined), then the runs are
scanned. -/
def commit_sample (runs : List Run) (c : Commit) : Except Unit (Option (BranchKey × Int)) :=
  match parse_ts c.date with
  | none => Except.error ()
  | some t => lead_scan c.sha t runs

/-- The commit loop of calculate_lead_time_for_changes, appending each lead
time at the end of the list of the branch of the matched run. -/
def lead_samples_aux (runs : List Run) (acc : PerBranch (List Int)) :
    List Commit → Except Unit (PerBranch (List Int))
  | [] => Except.ok acc
  | c :: cs =>
    match commit_sample runs c with
    | Except.error e => Except.error e
    | Except.ok none => lead_samples_aux runs acc cs
    | Except.ok (some (b, d)) => lead_samples_aux runs (acc.set b (acc.get b ++ [d])) cs

/-- The branch_lead_times dictionary of calculate_lead_time_for_changes. -/
def lead_samples (commits : List Commit) (runs : List Run) :
    Except Unit (PerBranch (List Int)) :=
  lead_samples_aux runs (PerBranch.const []) commits

/-- The previous_failures list comprehension of calculate_mttr: runs with an
updated_at string strictly below the one of r, conclusion failure and the
same head_branch. -/
def prev_failures (runs : List Run) (r : Run) : List Run :=
  runs.filter (fun x =>
    str_lt x.updated_at r.updated_at && x.conclusion == "failure" && x.head_branch == r.head_branch)

/-- The Python max call of calculate_mttr with key updated_at: fold keeping
the current maximum, replacing it only on a strictly larger key, so the first
of several equal maxima is kept. -/
def latest_failure (hd : Run) (tl : List Run) : Run :=
  tl.foldl (fun best r => if str_lt best.updated_at r.updated_at then r else best) hd

/-- One iteration of the run loop of calculate_mttr: a success run with a
head_branch among dev, staging, prod is paired with the most recent previous
failure of the same head_branch, if any; both updated_at strings are then
parsed (strptime raising models as error) and the difference recorded. -/
def mttr_sample (runs : List Run) (r : Run) : Except Unit (Option (BranchKey × Int)) :=
  if r.conclusion = "success" then
    match branch_key r.head_branch with
    | none => Except.ok none
    | some b =>
      match prev_failures runs r with
      | [] => Except.ok none
      | f :: fs =>
        match parse_ts r.updated_at, parse_ts (latest_failure f fs).updated_at with
        | some tr, some tf => Except.ok (some (b, (tr : Int) - (tf : Int)))
        | _, _ => Except.error ()
  else Except.ok none

/-- The run loop of calculate_mttr, appending each recovery time at the end
of the list of the branch of the success run. -/
def mttr_aux (runs : List Run) (acc : PerBranch (List Int)) :
    List Run → Except Unit (PerBranch (List Int))
  | [] => Except.ok acc
  | r :: rest =>
    match mttr_sample runs r with
    | Except.error e => Except.error e
    | Except.ok none => mttr_aux runs acc rest
    | Except.ok (some (b, d)) => mttr_aux runs (acc.set b (acc.get b ++ [d])) rest

/-- The branch_recovery_times dictionary of calculate_mttr. -/
def mttr_samples (runs : List Run) : Except Unit (PerBranch (List Int)) :=
  mttr_aux runs (PerBranch.const []) runs

/-- The gauge update branch of both calculators: the arithmetic mean of the
recorded samples when the list is non-empty, the literal zero otherwise.
statistics.mean and sum divided by len agree on the exact value. -/
def mean_or_zero (l : List Int) : Rat :=
  if l = [] then 0 else ((l.foldl (fun a x => a + x) 0 : Int) : Rat) / (l.length : Rat)

/-- The published gauge values: one field per metric family, one entry per
branch label.  Counts are published through Gauge.set as numbers. -/
structure GaugeState : Type where
  deploy_success : PerBranch Rat
  deploy_failure : PerBranch Rat
  lead_time : PerBranch Rat
  mttr : PerBranch Rat
deriving DecidableEq

/-- The gauge-writing loop of calculate_deployment_counter: every branch and
status entry of deployment_stats is written. -/
def set_deploy (st : PerBranch DeployCounts) (g : GaugeState) : GaugeState :=
  { g with
    deploy_success := st.map (fun c => (c.success : Rat)),
    deploy_failure := st.map (fun c => (c.failure : Rat)) }

/-- The gauge-writing loop of calculate_lead_time_for_changes: mean when
samples exist, zero otherwise, for every branch. -/
def set_lead (samples : PerBranch (List Int)) (g : GaugeState) : GaugeState :=
  { g with lead_time := samples.map mean_or_zero }

/-- The gauge-writing loop of calculate_mttr. -/
def set_mttr (samples : PerBranch (List Int)) (g : GaugeState) : GaugeState :=
  { g with mttr := samples.map mean_or_zero }

/-- calculate_deployment_counter: compute deployment_stats and write the
deployment gauges.  It parses no timestamps and cannot raise. -/
def calculate_deployment_counter (runs : List Run) (g : GaugeState) : GaugeState :=
  set_deploy (deployment_stats runs) g

/-- calculate_lead_time_for_changes: compute the samples, then write the
lead-time gauges; a strptime failure raises before any gauge write. -/
def calculate_lead_time_for_changes (commits : List Commit) (runs : List Run)
    (g : GaugeState) : Except Unit GaugeState :=
  match lead_samples commits runs with
  | Except.error e => Except.error e
  | Except.ok ls => Except.ok (set_lead ls g)

/-- calculate_mttr: compute the samples, then write the MTTR gauges; a
strptime failure raises before any gauge write. -/
def calculate_mttr (runs : List Run) (g : GaugeState) : Except Unit GaugeState :=
  match mttr_samples runs with
  | Except.error e => Except.error e
  | Except.ok ms => Except.ok (set_mttr ms g)

/-- One body of the main loop: update_metrics inside the try block, with the
except handler of the loop keeping whatever gauge state had already been
written when a calculator raises.  The three calculators run in source
order: deployment counter, lead time, MTTR. -/
def update_metrics (commits : List Commit) (runs : List Run) (g : GaugeState) : GaugeState :=
  let g1 := calculate_deployment_counter runs g
  match calculate_lead_time_for_changes commits runs g1 with
  | Except.error _ => g1
  | Except.ok g2 =>
    match calculate_mttr runs g2 with
    | Except.error _ => g2
    | Except.ok g3 => g3

/-- The pagination loop of fetch_commits and fetch_workflow_runs over a list
of page outcomes: on a successful page the items extend the accumulator and
the loop continues with the next url; on a RequestException the loop logs and
breaks, returning the items accumulated so far. -/
def fetch_pages {α : Type} : List (Except Unit (List α)) → List α
  | [] => []
  | Except.ok xs :: rest => xs ++ fetch_pages rest
  | Except.error _ :: _ => []

/-- update_metrics together with its two fetches: workflow runs first, then
commits, then the three calculators, as in the source. -/
def update_metrics_fetch (run_pages : List (Except Unit (List Run)))
    (commit_pages : List (Except Unit (List Commit))) (g : GaugeState) : GaugeState :=
  update_metrics (fetch_pages commit_pages) (fetch_pages run_pages) g

/-- The first-match predicate of the inner deployment loop of
calculate_lead_time_for_changes for a given commit sha: conclusion success, a
path in the branch_paths table, matching head_sha. -/
def lead_match (sha : String) (r : Run) : Bool :=
  r.conclusion == "success" && (branch_paths r.path).isSome && sha == r.head_sha

/-- The contribution of a single commit to the lead-time samples, phrased
through List.find?: the first run in order satisfying lead_match determines
the branch (from its path) and the lead time. -/
def first_lead_sample (runs : List Run) (c : Commit) : Option (BranchKey × Int) :=
  match runs.find? (lead_match c.sha), parse_ts c.date with
  | some r, some tc =>
    (match branch_paths r.path, parse_ts r.updated_at with
     | some b, some tr => some (b, (tr : Int) - (tc : Int))
     | _, _ => none)
  | _, _ => none

/-- The contribution of a single run to the recovery-time samples of a given
branch: a success run of that head_branch paired with the latest previous
failure, if any. -/
def spec_recovery_sample (runs : List Run) (b : BranchKey) (r : Run) : Option Int :=
  if r.conclusion = "success" ∧ branch_key r.head_branch = some b then
    match prev_failures runs r with
    | [] => none
    | f :: fs =>
      match parse_ts r.updated_at, parse_ts (latest_failure f fs).updated_at with
      | some tr, some tf => some ((tr : Int) - (tf : Int))
      | _, _ => none
  else none

/-- The first element of a list that no element of the list strictly exceeds
on the updated_at key: the maximum with ties broken by first encounter. -/
def first_max_failure (l : List Run) : Option Run :=
  l.find? (fun x => l.all (fun y => ! str_lt x.updated_at y.updated_at))

/-- Total number of recorded samples over the three branches. -/
def samples_total (p : PerBranch (List Int)) : Nat :=
  p.dev.length + p.staging.length + p.prod.length

/-- Total of all success and failure counters over the three branches. -/
def total_counts (p : PerBranch DeployCounts) : Nat :=
  p.dev.success + p.dev.failure + p.staging.success + p.staging.failure +
    p.prod.success + p.prod.failure

/-- Membership of a run in the deployment tally of branch b with a given
conclusion string, as tested by calculate_deployment_counter. -/
def counted_pred (b : BranchKey) (concl : String) (r : Run) : Bool :=
  decide (r.path ∈ tracked_paths) && decide (branch_key r.head_branch = some b) &&
    decide (r.conclusion = concl)

/-- Commit of the first end-to-end scenario: id a, authored at second 0. -/
def c9_commit : Commit := ⟨"a", "0001-01-01T00:00:00Z"⟩

/-- Run of the first end-to-end scenario: dev deploy workflow, success,
completed at second 5, built from commit a. -/
def c9_run : Run :=
  ⟨"a", ".github/workflows/dev.yml", "success", "dev", "0001-01-01T00:00:05Z"⟩

/-- Failure run of the second end-to-end scenario: prod, completed at 0. -/
def c9_fail : Run :=
  ⟨"f", ".github/workflows/prod.yml", "failure", "prod", "0001-01-01T00:00:00Z"⟩

/-- Success run of the second end-to-end scenario: prod, completed at 100. -/
def c9_succ : Run :=
  ⟨"s", ".github/workflows/prod.yml", "success", "prod", "0001-01-01T00:01:40Z"⟩

/-- Gauge state with every value zero, the state of a fresh process. -/
def gauges_zero : GaugeState :=
  ⟨PerBranch.const 0, PerBranch.const 0, PerBranch.const 0, PerBranch.const 0⟩

/-- Gauge state with every value seven, standing for the values published by
an earlier successful cycle. -/
def gauges_seven : GaugeState :=
  ⟨PerBranch.const 7, PerBranch.const 7, PerBranch.const 7, PerBranch.const 7⟩

/-- Recovery scenario of claim C4: failures at seconds 10 and 20, then a
success at second 30, all on the prod branch. -/
def c4_runs : List Run :=
  [⟨"x1", ".github/workflows/prod.yml", "failure", "prod", "0001-01-01T00:00:10Z"⟩,
   ⟨"x2", ".github/workflows/prod.yml", "failure", "prod", "0001-01-01T00:00:20Z"⟩,
   ⟨"x3", ".github/workflows/prod.yml", "success", "prod", "0001-01-01T00:00:30Z"⟩]

/-- Runs whose workflow path ci.yml is outside the path table, on
head_branch dev: a failure at 10 and a success at 30. -/
def c2_untracked_runs : List Run :=
  [⟨"y1", ".github/workflows/ci.yml", "failure", "dev", "0001-01-01T00:00:10Z"⟩,
   ⟨"y2", ".github/workflows/ci.yml", "success", "dev", "0001-01-01T00:00:30Z"⟩]

/-- A run whose path is the dev deploy workflow but whose head_branch is
prod. -/
def c2_mixed_run : Run :=
  ⟨"y3", ".github/workflows/dev.yml", "success", "prod", "0001-01-01T00:00:05Z"⟩

/-- A commit whose author date string does not parse. -/
def c10_commits : List Commit := [⟨"a", "not-a-timestamp"⟩]

/-- A run with a conclusion that is neither success nor failure. -/
def c6_cancelled : Run :=
  ⟨"z", ".github/workflows/dev.yml", "cancelled", "dev", "0001-01-01T00:00:05Z"⟩

/-- Commit authored at second 10 whose deploy run completed at second 5. -/
def c7_commit : Commit := ⟨"n", "0001-01-01T00:00:10Z"⟩

/-- Successful dev run for commit n completed at second 5, before the commit
author date. -/
def c7_run : Run :=
  ⟨"n", ".github/workflows/dev.yml", "success", "dev", "0001-01-01T00:00:05Z"⟩

/-- Reading one entry of a table after writing one entry. -/
theorem PerBranch.get_set {α : Type} (p : PerBranch α) (b b2 : BranchKey) (a : α) :
    (p.set b a).get b2 = if b2 = b then a else p.get b2 := by
  cases b <;> cases b2 <;> simp [PerBranch.set, PerBranch.get]

/-- Every entry of a constant table is the constant. -/
theorem PerBranch.get_const {α : Type} (a : α) (b : BranchKey) :
    (PerBranch.const a).get b = a := by
  cases b <;> rfl

/-- The lexicographic order is irreflexive. -/
theorem str_lt_go_irrefl : ∀ l : List Char, str_lt_go l l = false
  | [] => rfl
  | _ :: xs => by simp [str_lt_go, str_lt_go_irrefl xs]

/-- The lexicographic order is transitive. -/
theorem str_lt_go_trans (a b c : List Char) (h1 : str_lt_go a b = true)
    (h2 : str_lt_go b c = true) : str_lt_go a c = true := by
  induction a generalizing b c with
  | nil =>
    cases c with
    | nil => cases b <;> simp [str_lt_go] at h2
    | cons z zs => rfl
  | cons x xs ih =>
    cases b with
    | nil => simp [str_lt_go] at h1
    | cons y ys =>
      cases c with
      | nil => simp [str_lt_go] at h2
      | cons z zs =>
        simp only [str_lt_go] at h1 h2 ⊢
        by_cases hxy : x.toNat < y.toNat
        · by_cases hyz : y.toNat < z.toNat
          · simp [Nat.lt_trans hxy hyz]
          · simp only [if_neg hyz] at h2
            by_cases hzy : z.toNat < y.toNat
            · simp [hzy] at h2
            · simp only [if_neg hzy] at h2
              have hxz : x.toNat < z.toNat := by omega
              simp [hxz]
        · simp only [if_neg hxy] at h1
          by_cases hyx : y.toNat < x.toNat
          · simp [hyx] at h1
          · simp only [if_neg hyx] at h1
            by_cases hyz : y.toNat < z.toNat
            · have hxz : x.toNat < z.toNat := by omega
              simp [hxz]
            · simp only [if_neg hyz] at h2
              by_cases hzy : z.toNat < y.toNat
              · simp [hzy] at h2
              · simp only [if_neg hzy] at h2
                have hxz : ¬ x.toNat < z.toNat := by omega
                have hzx : ¬ z.toNat < x.toNat := by omega
                simp only [if_neg hxz, if_neg hzx]
                exact ih ys zs h1 h2

/-- Two lists below each other in neither direction are equal. -/
theorem str_lt_go_connex (a : List Char) : ∀ b : List Char, str_lt_go a b = false →
    str_lt_go b a = false → a = b := by
  induction a with
  | nil =>
    intro b h1 _
    cases b with
    | nil => rfl
    | cons y ys => simp [str_lt_go] at h1
  | cons x xs ih =>
    intro b h1 h2
    cases b with
    | nil => simp [str_lt_go] at h2
    | cons y ys =>
      simp only [str_lt_go] at h1 h2
      by_cases hxy : x.toNat < y.toNat
      · simp [hxy] at h1
      · by_cases hyx : y.toNat < x.toNat
        · simp [hyx] at h2
        · simp only [if_neg hxy, if_neg hyx] at h1 h2
          have hn : x.toNat = y.toNat := by omega
          have hx : x = y := Char.eq_of_val_eq (UInt32.toNat.inj hn)
          rw [hx, ih ys h1 h2]

/-- String comparison is irreflexive. -/
theorem str_lt_irrefl (s : String) : str_lt s s = false :=
  str_lt_go_irrefl s.data

/-- String comparison is transitive. -/
theorem str_lt_trans {a b c : String} (h1 : str_lt a b = true) (h2 : str_lt b c = true) :
    str_lt a c = true :=
  str_lt_go_trans a.data b.data c.data h1 h2

/-- Strings below each other in neither direction are equal. -/
theorem str_lt_connex {a b : String} (h1 : str_lt a b = false) (h2 : str_lt b a = false) :
    a = b := by
  cases a
  cases b
  exact congrArg String.mk (str_lt_go_connex _ _ h1 h2)

/-- From a strictly below b and c not strictly below b follows a strictly
below c. -/
theorem str_lt_of_lt_of_nlt {a b c : String} (h1 : str_lt a b = true)
    (h2 : str_lt c b = false) : str_lt a c = true := by
  by_cases h : str_lt a c = true
  · exact h
  · have hac : str_lt a c = false := by
      revert h
      cases str_lt a c <;> simp
    by_cases h3 : str_lt c a = true
    · have := str_lt_trans h3 h1
      rw [h2] at this
      cases this
    · have hca : str_lt c a = false := by
        revert h3
        cases str_lt c a <;> simp
      have hec : a = c := str_lt_connex hac hca
      rw [← hec] at h2
      rw [h1] at h2
      cases h2

/-- From b not strictly below a and a strictly below c follows b strictly
below c. -/
theorem str_lt_of_nlt_of_lt {a b c : String} (h1 : str_lt a b = false)
    (h2 : str_lt a c = true) : str_lt b c = true := by
  by_cases h3 : str_lt b a = true
  · exact str_lt_trans h3 h2
  · have hba : str_lt b a = false := by
      revert h3
      cases str_lt b a <;> simp
    have heq : a = b := str_lt_connex h1 hba
    rw [← heq]
    exact h2

/-- The element selected by the max fold is an element of the list. -/
theorem latest_failure_mem (hd : Run) (tl : List Run) : latest_failure hd tl ∈ hd :: tl := by
  induction tl generalizing hd with
  | nil => simp [latest_failure]
  | cons y ys ih =>
    show latest_failure (if str_lt hd.updated_at y.updated_at then y else hd) ys ∈ hd :: y :: ys
    by_cases h : str_lt hd.updated_at y.updated_at = true
    · rw [if_pos h]
      have := ih y
      rcases List.mem_cons.mp this with h2 | h2
      · simp [h2]
      · simp [List.mem_cons.mpr (Or.inr h2)]
    · rw [if_neg h]
      have := ih hd
      rcases List.mem_cons.mp this with h2 | h2
      · simp [h2]
      · simp [List.mem_cons.mpr (Or.inr h2)]

/-- No element of the list is strictly above the element selected by the max
fold: it is a maximum of the updated_at key. -/
theorem latest_failure_max (hd : Run) (tl : List Run) :
    ∀ x ∈ hd :: tl, str_lt (latest_failure hd tl).updated_at x.updated_at = false := by
  induction tl generalizing hd with
  | nil =>
    intro x hx
    rcases List.mem_cons.mp hx with rfl | h2
    · simp [latest_failure, str_lt_irrefl]
    · cases h2
  | cons y ys ih =>
    intro x hx
    show str_lt (latest_failure (if str_lt hd.updated_at y.updated_at then y else hd) ys).updated_at
        x.updated_at = false
    by_cases h : str_lt hd.updated_at y.updated_at = true
    · rw [if_pos h]
      rcases List.mem_cons.mp hx with heq | h2
      · -- x is the old head, strictly below y, hence below the maximum
        rw [heq]
        have hy : str_lt (latest_failure y ys).updated_at y.updated_at = false :=
          ih y y (List.mem_cons_self y ys)
        by_cases hc : str_lt (latest_failure y ys).updated_at hd.updated_at = true
        · have := str_lt_trans hc h
          rw [hy] at this
          cases this
        · revert hc
          cases str_lt (latest_failure y ys).updated_at hd.updated_at <;> simp
      · exact ih y x h2
    · rw [if_neg h]
      have hb : str_lt hd.updated_at y.updated_at = false := by
        revert h
        cases str_lt hd.updated_at y.updated_at <;> simp
      rcases List.mem_cons.mp hx with heq | h2
      · rw [heq]
        exact ih hd hd (List.mem_cons_self hd ys)
      · rcases List.mem_cons.mp h2 with heq2 | h3
        · -- x is the skipped element y, not above the old head
          rw [heq2]
          have hh : str_lt (latest_failure hd ys).updated_at hd.updated_at = false :=
            ih hd hd (List.mem_cons_self hd ys)
          by_cases hc : str_lt (latest_failure hd ys).updated_at y.updated_at = true
          · have := str_lt_of_lt_of_nlt hc hb
            rw [hh] at this
            cases this
          · revert hc
            cases str_lt (latest_failure hd ys).updated_at y.updated_at <;> simp
        · exact ih hd x (List.mem_cons.mpr (Or.inr h3))

/-- The max fold selects the first of the maxima: the list splits into a
left part of strictly smaller keys, the selected element and a rest. -/
theorem latest_failure_decomp (hd : Run) (tl : List Run) :
    ∃ l1 l2, hd :: tl = l1 ++ latest_failure hd tl :: l2 ∧
      ∀ x ∈ l1, str_lt x.updated_at (latest_failure hd tl).updated_at = true := by
  induction tl generalizing hd with
  | nil => exact ⟨[], [], rfl, by simp⟩
  | cons y ys ih =>
    show ∃ l1 l2, hd :: y :: ys =
        l1 ++ latest_failure (if str_lt hd.updated_at y.updated_at then y else hd) ys :: l2 ∧
      ∀ x ∈ l1,
        str_lt x.updated_at
          (latest_failure (if str_lt hd.updated_at y.updated_at then y else hd) ys).updated_at =
          true
    by_cases h : str_lt hd.updated_at y.updated_at = true
    · rw [if_pos h]
      obtain ⟨l1, l2, hdec, hlt⟩ := ih y
      refine ⟨hd :: l1, l2, by rw [List.cons_append, ← hdec], ?_⟩
      intro x hx
      rcases List.mem_cons.mp hx with rfl | h2
      · have hy : str_lt (latest_failure y ys).updated_at y.updated_at = false :=
          latest_failure_max y ys y (List.mem_cons_self y ys)
        exact str_lt_of_lt_of_nlt h hy
      · exact hlt x h2
    · rw [if_neg h]
      have hb : str_lt hd.updated_at y.updated_at = false := by
        revert h
        cases str_lt hd.updated_at y.updated_at <;> simp
      obtain ⟨l1, l2, hdec, hlt⟩ := ih hd
      cases l1 with
      | nil =>
        simp only [List.nil_append] at hdec
        have hhd : hd = latest_failure hd ys := (List.cons.injEq _ _ _ _).mp hdec |>.1
        refine ⟨[], y :: ys, ?_, by simp⟩
        rw [List.nil_append, ← hhd]
      | cons a l1x =>
        simp only [List.cons_append, List.cons.injEq] at hdec
        obtain ⟨rfl, hys⟩ := hdec
        refine ⟨hd :: y :: l1x, l2, ?_, ?_⟩
        · rw [List.cons_append, List.cons_append, ← hys]
        · intro x hx
          have hhd : str_lt hd.updated_at (latest_failure hd ys).updated_at = true :=
            hlt hd (List.mem_cons_self hd l1x)
          rcases List.mem_cons.mp hx with rfl | h2
          · exact hhd
          · rcases List.mem_cons.mp h2 with rfl | h3
            · exact str_lt_of_nlt_of_lt hb hhd
            · exact hlt x (List.mem_cons.mpr (Or.inr h3))

/-- find? on a list split around an element whose left part fails the
predicate returns that element when it satisfies the predicate. -/
theorem find?_of_decomp {α : Type} (p : α → Bool) :
    ∀ (l1 : List α) (x : α) (l2 : List α), p x = true → (∀ y ∈ l1, p y = false) →
      List.find? p (l1 ++ x :: l2) = some x := by
  intro l1
  induction l1 with
  | nil =>
    intro x l2 hx _
    simp [List.find?_cons, hx]
  | cons a l1x ih =>
    intro x l2 hx hall
    have ha : p a = false := hall a (List.mem_cons_self a l1x)
    simp only [List.cons_append, List.find?_cons, ha]
    exact ih x l2 hx (fun y hy => hall y (List.mem_cons.mpr (Or.inr hy)))

/-- The Python max call returns exactly the first element of the list that no
element strictly exceeds on the updated_at key: maximum with ties broken by
first encounter. -/
theorem latest_failure_first_max (hd : Run) (tl : List Run) :
    first_max_failure (hd :: tl) = some (latest_failure hd tl) := by
  obtain ⟨l1, l2, hdec, hlt⟩ := latest_failure_decomp hd tl
  have hmax := latest_failure_max hd tl
  rw [first_max_failure, hdec]
  apply find?_of_decomp
  · rw [List.all_eq_true]
    intro y hy
    rw [← hdec] at hy
    simp [hmax y hy]
  · intro y hy
    have hmem : latest_failure hd tl ∈ l1 ++ latest_failure hd tl :: l2 := by
      simp
    apply (Bool.eq_false_iff).mpr
    intro hall
    rw [List.all_eq_true] at hall
    have := hall (latest_failure hd tl) hmem
    rw [hlt y hy] at this
    simp at this

/-- A scan returning ok none means no run satisfies the first-match
predicate. -/
theorem lead_scan_ok_none (sha : String) (t : Nat) :
    ∀ runs : List Run, lead_scan sha t runs = Except.ok none →
      runs.find? (lead_match sha) = none := by
  intro runs
  induction runs with
  | nil => intro _; rfl
  | cons r rest ih =>
    intro h
    rw [List.find?_cons]
    cases hb : branch_paths r.path with
    | none =>
      have hpred : lead_match sha r = false := by
        simp [lead_match, hb]
      rw [hpred]
      apply ih
      simpa only [lead_scan, hb] using h
    | some b0 =>
      by_cases hc : r.conclusion = "success"
      · by_cases hs : sha = r.head_sha
        · exfalso
          simp only [lead_scan, hb, if_pos hc, if_pos hs] at h
          cases hp : parse_ts r.updated_at <;> rw [hp] at h <;> cases h
        · have hpred : lead_match sha r = false := by
            simp [lead_match, hs]
          rw [hpred]
          apply ih
          simpa only [lead_scan, hb, if_pos hc, if_neg hs] using h
      · have hpred : lead_match sha r = false := by
          simp [lead_match, hc]
        rw [hpred]
        apply ih
        simpa only [lead_scan, hb, if_neg hc] using h

/-- A scan returning a sample identifies the first matching run, its branch
from the path table, and the recorded difference of parsed timestamps. -/
theorem lead_scan_ok_some (sha : String) (t : Nat) :
    ∀ (runs : List Run) (b : BranchKey) (d : Int),
      lead_scan sha t runs = Except.ok (some (b, d)) →
      ∃ r tr, runs.find? (lead_match sha) = some r ∧ branch_paths r.path = some b ∧
        parse_ts r.updated_at = some tr ∧ d = (tr : Int) - (t : Int) := by
  intro runs
  induction runs with
  | nil => intro b d h; cases h
  | cons r rest ih =>
    intro b d h
    rw [List.find?_cons]
    cases hb : branch_paths r.path with
    | none =>
      have hpred : lead_match sha r = false := by
        simp [lead_match, hb]
      rw [hpred]
      apply ih
      simpa only [lead_scan, hb] using h
    | some b0 =>
      by_cases hc : r.conclusion = "success"
      · by_cases hs : sha = r.head_sha
        · have hpred : lead_match sha r = true := by
            simp [lead_match, hb, hc, hs]
          rw [hpred]
          simp only [lead_scan, hb, if_pos hc, if_pos hs] at h
          cases hp : parse_ts r.updated_at with
          | none => rw [hp] at h; cases h
          | some tr =>
            rw [hp] at h
            injection h with h2
            injection h2 with h3
            simp only [Prod.mk.injEq] at h3
            obtain ⟨hbe, hde⟩ := h3
            exact ⟨r, tr, rfl, hbe ▸ hb, hp, hde.symm⟩
        · have hpred : lead_match sha r = false := by
            simp [lead_match, hs]
          rw [hpred]
          apply ih
          simpa only [lead_scan, hb, if_pos hc, if_neg hs] using h
      · have hpred : lead_match sha r = false := by
          simp [lead_match, hc]
        rw [hpred]
        apply ih
        simpa only [lead_scan, hb, if_neg hc] using h

/-- The contribution of one commit, when the loop body does not raise, is
exactly first_lead_sample. -/
theorem commit_sample_ok (runs : List Run) (c : Commit) (o : Option (BranchKey × Int))
    (h : commit_sample runs c = Except.ok o) : o = first_lead_sample runs c := by
  unfold commit_sample at h
  cases hp : parse_ts c.date with
  | none => rw [hp] at h; cases h
  | some t =>
    rw [hp] at h
    cases o with
    | none =>
      have hfind := lead_scan_ok_none c.sha t runs h
      unfold first_lead_sample
      rw [hfind, hp]
    | some p =>
      obtain ⟨b, d⟩ := p
      obtain ⟨r, tr, hfind, hbp, hpt, hd⟩ := lead_scan_ok_some c.sha t runs b d h
      unfold first_lead_sample
      rw [hfind, hp]
      dsimp only
      rw [hbp, hpt]
      dsimp only
      rw [hd]

/-- Fold characterization of the commit loop: the samples of branch b are the
prior accumulator entry followed by the per-commit first-match samples of b,
in commit order. -/
theorem lead_samples_aux_ok (runs : List Run) :
    ∀ (cs : List Commit) (acc f : PerBranch (List Int)),
      lead_samples_aux runs acc cs = Except.ok f → ∀ b : BranchKey,
        f.get b = acc.get b ++ cs.filterMap (fun c =>
          (first_lead_sample runs c).bind (fun p => if p.1 = b then some p.2 else none)) := by
  intro cs
  induction cs with
  | nil =>
    intro acc f h b
    injection h with h2
    rw [← h2]
    simp
  | cons c cs ih =>
    intro acc f h b
    simp only [lead_samples_aux] at h
    cases hs : commit_sample runs c with
    | error e => rw [hs] at h; cases h
    | ok o =>
      rw [hs] at h
      have ho : o = first_lead_sample runs c := commit_sample_ok runs c o hs
      cases o with
      | none =>
        rw [List.filterMap_cons, ← ho]
        exact ih acc f h b
      | some p =>
        obtain ⟨b0, d⟩ := p
        have hstep := ih (acc.set b0 (acc.get b0 ++ [d])) f h b
        rw [hstep, List.filterMap_cons, ← ho]
        by_cases hbb : b0 = b
        · subst hbb
          simp [PerBranch.get_set]
        · simp [PerBranch.get_set, hbb, Ne.symm hbb]

/-- The samples of branch b recorded by calculate_lead_time_for_changes are
exactly the per-commit first-match samples of b, in commit order. -/
theorem lead_samples_ok (commits : List Commit) (runs : List Run)
    (f : PerBranch (List Int)) (h : lead_samples commits runs = Except.ok f) (b : BranchKey) :
    f.get b = commits.filterMap (fun c =>
      (first_lead_sample runs c).bind (fun p => if p.1 = b then some p.2 else none)) := by
  have := lead_samples_aux_ok runs commits (PerBranch.const []) f h b
  simpa [PerBranch.get_const] using this

/-- Writing an appended entry raises the total sample count by one. -/
theorem samples_total_set_append (acc : PerBranch (List Int)) (b : BranchKey) (d : Int) :
    samples_total (acc.set b (acc.get b ++ [d])) = samples_total acc + 1 := by
  cases b <;> simp [samples_total, PerBranch.set, PerBranch.get] <;> omega

/-- Fold bound: each commit contributes at most one sample. -/
theorem lead_samples_aux_total (runs : List Run) :
    ∀ (cs : List Commit) (acc f : PerBranch (List Int)),
      lead_samples_aux runs acc cs = Except.ok f →
        samples_total f ≤ samples_total acc + cs.length := by
  intro cs
  induction cs with
  | nil =>
    intro acc f h
    injection h with h2
    rw [← h2]
    simp
  | cons c cs ih =>
    intro acc f h
    simp only [lead_samples_aux] at h
    cases hs : commit_sample runs c with
    | error e => rw [hs] at h; cases h
    | ok o =>
      rw [hs] at h
      cases o with
      | none =>
        have := ih acc f h
        simp only [List.length_cons]
        omega
      | some p =>
        obtain ⟨b0, d⟩ := p
        have := ih (acc.set b0 (acc.get b0 ++ [d])) f h
        rw [samples_total_set_append] at this
        simp only [List.length_cons]
        omega

/-- The contribution of one run, when the loop body does not raise, is
exactly spec_recovery_sample, branch by branch. -/
theorem mttr_sample_ok (runs : List Run) (r : Run) (o : Option (BranchKey × Int))
    (h : mttr_sample runs r = Except.ok o) (b : BranchKey) :
    o.bind (fun p => if p.1 = b then some p.2 else none) = spec_recovery_sample runs b r := by
  unfold mttr_sample at h
  by_cases hc : r.conclusion = "success"
  · rw [if_pos hc] at h
    cases hk : branch_key r.head_branch with
    | none =>
      rw [hk] at h
      injection h with h2
      rw [← h2]
      unfold spec_recovery_sample
      rw [if_neg]
      · rfl
      · intro hcon
        rw [hk] at hcon
        cases hcon.2
    | some b0 =>
      rw [hk] at h
      cases hpf : prev_failures runs r with
      | nil =>
        rw [hpf] at h
        injection h with h2
        rw [← h2]
        by_cases hbb : b0 = b
        · subst hbb
          simp [spec_recovery_sample, hc, hk, hpf]
        · simp [spec_recovery_sample, hc, hk, hbb]
      | cons fh fs =>
        rw [hpf] at h
        dsimp only at h
        cases hpr : parse_ts r.updated_at with
        | none => rw [hpr] at h; cases h
        | some tr =>
          rw [hpr] at h
          cases hpl : parse_ts (latest_failure fh fs).updated_at with
          | none => rw [hpl] at h; cases h
          | some tf =>
            rw [hpl] at h
            injection h with h2
            rw [← h2]
            by_cases hbb : b0 = b
            · subst hbb
              simp [spec_recovery_sample, hc, hk, hpf, hpr, hpl]
            · simp [spec_recovery_sample, hc, hk, hbb]
  · rw [if_neg hc] at h
    injection h with h2
    rw [← h2]
    simp [spec_recovery_sample, hc]

/-- Fold characterization of the run loop of calculate_mttr. -/
theorem mttr_aux_ok (runs : List Run) :
    ∀ (l : List Run) (acc g : PerBranch (List Int)),
      mttr_aux runs acc l = Except.ok g → ∀ b : BranchKey,
        g.get b = acc.get b ++ l.filterMap (spec_recovery_sample runs b) := by
  intro l
  induction l with
  | nil =>
    intro acc g h b
    injection h with h2
    rw [← h2]
    simp
  | cons r rest ih =>
    intro acc g h b
    simp only [mttr_aux] at h
    cases hs : mttr_sample runs r with
    | error e => rw [hs] at h; cases h
    | ok o =>
      rw [hs] at h
      have ho := mttr_sample_ok runs r o hs b
      cases o with
      | none =>
        rw [List.filterMap_cons]
        simp only [Option.bind] at ho
        rw [← ho]
        exact ih acc g h b
      | some p =>
        obtain ⟨b0, d⟩ := p
        have hstep := ih (acc.set b0 (acc.get b0 ++ [d])) g h b
        rw [hstep, List.filterMap_cons, ← ho]
        by_cases hbb : b0 = b
        · subst hbb
          simp [PerBranch.get_set]
        · simp [PerBranch.get_set, hbb, Ne.symm hbb]

/-- The recovery samples of branch b recorded by calculate_mttr are exactly
the per-run pairings with the latest previous failure, in run order. -/
theorem mttr_samples_ok (runs : List Run) (g : PerBranch (List Int))
    (h : mttr_samples runs = Except.ok g) (b : BranchKey) :
    g.get b = runs.filterMap (spec_recovery_sample runs b) := by
  have := mttr_aux_ok runs runs (PerBranch.const []) g h b
  simpa [PerBranch.get_const] using this

/-- Fold characterization of the deployment tally: gating on the tracked
paths, keying on head_branch, counting the two conclusion strings. -/
theorem deployment_stats_aux (b : BranchKey) :
    ∀ (runs : List Run) (acc : PerBranch DeployCounts),
      (runs.foldl countRun acc).get b =
        ⟨(acc.get b).success + (runs.filter (counted_pred b "success")).length,
         (acc.get b).failure + (runs.filter (counted_pred b "failure")).length⟩ := by
  intro runs
  induction runs with
  | nil => intro acc; simp
  | cons r rest ih =>
    intro acc
    simp only [List.foldl_cons, List.filter_cons]
    rw [ih (countRun acc r)]
    by_cases hp : r.path ∈ tracked_paths
    · cases hk : branch_key r.head_branch with
      | none =>
        have hcr : countRun acc r = acc := by
          unfold countRun
          rw [if_pos hp, hk]
        have hs : counted_pred b "success" r = false := by
          simp [counted_pred, hk]
        have hf : counted_pred b "failure" r = false := by
          simp [counted_pred, hk]
        rw [hcr, hs, hf]
        simp
      | some b0 =>
        by_cases hcs : r.conclusion = "success"
        · have hcr : countRun acc r =
              acc.set b0 ⟨(acc.get b0).success + 1, (acc.get b0).failure⟩ := by
            unfold countRun
            rw [if_pos hp, hk]
            dsimp only
            rw [if_pos hcs]
          rw [hcr]
          have hf : counted_pred b "failure" r = false := by
            simp [counted_pred, hcs]
          by_cases hbb : b = b0
          · subst hbb
            have hs : counted_pred b "success" r = true := by
              simp [counted_pred, hp, hk, hcs]
            rw [hs, hf]
            simp [PerBranch.get_set, DeployCounts.mk.injEq]
            omega
          · have hs : counted_pred b "success" r = false := by
              simp [counted_pred, hk, Ne.symm hbb]
            rw [hs, hf]
            simp [PerBranch.get_set, hbb]
        · by_cases hcf : r.conclusion = "failure"
          · have hcr : countRun acc r =
                acc.set b0 ⟨(acc.get b0).success, (acc.get b0).failure + 1⟩ := by
              unfold countRun
              rw [if_pos hp, hk]
              dsimp only
              rw [if_neg hcs, if_pos hcf]
            rw [hcr]
            have hs : counted_pred b "success" r = false := by
              simp [counted_pred, hcf]
            by_cases hbb : b = b0
            · subst hbb
              have hf : counted_pred b "failure" r = true := by
                simp [counted_pred, hp, hk, hcf]
              rw [hs, hf]
              simp [PerBranch.get_set, DeployCounts.mk.injEq]
              omega
            · have hf : counted_pred b "failure" r = false := by
                simp [counted_pred, hk, Ne.symm hbb]
              rw [hs, hf]
              simp [PerBranch.get_set, hbb]
          · have hcr : countRun acc r = acc := by
              unfold countRun
              rw [if_pos hp, hk]
              dsimp only
              rw [if_neg hcs, if_neg hcf]
            have hs : counted_pred b "success" r = false := by
              simp [counted_pred, hcs]
            have hf : counted_pred b "failure" r = false := by
              simp [counted_pred, hcf]
            rw [hcr, hs, hf]
            simp
    · have hcr : countRun acc r = acc := by
        unfold countRun
        rw [if_neg hp]
      have hs : counted_pred b "success" r = false := by
        simp [counted_pred, hp]
      have hf : counted_pred b "failure" r = false := by
        simp [counted_pred, hp]
      rw [hcr, hs, hf]
      simp

/-- The entry of branch b of deployment_stats counts exactly the runs that
pass the tracked-path gate, carry head_branch b and the given conclusion. -/
theorem deployment_stats_get (runs : List Run) (b : BranchKey) :
    (deployment_stats runs).get b =
      ⟨(runs.filter (counted_pred b "success")).length,
       (runs.filter (counted_pred b "failure")).length⟩ := by
  have := deployment_stats_aux b runs (PerBranch.const ⟨0, 0⟩)
  simpa [PerBranch.get_const, deployment_stats] using this

/-- A run whose conclusion is neither success nor failure leaves the tally
unchanged. -/
theorem countRun_other (acc : PerBranch DeployCounts) (r : Run)
    (h1 : r.conclusion ≠ "success") (h2 : r.conclusion ≠ "failure") : countRun acc r = acc := by
  unfold countRun
  by_cases hp : r.path ∈ tracked_paths
  · rw [if_pos hp]
    cases hk : branch_key r.head_branch with
    | none => rfl
    | some b0 =>
      dsimp only
      rw [if_neg h1, if_neg h2]
  · rw [if_neg hp]

/-- Fold bound: every counted run passes the tracked-path gate and increments
exactly one counter. -/
theorem total_counts_aux :
    ∀ (runs : List Run) (acc : PerBranch DeployCounts),
      total_counts (runs.foldl countRun acc) ≤
        total_counts acc + (runs.filter (fun r => decide (r.path ∈ tracked_paths))).length := by
  intro runs
  induction runs with
  | nil => intro acc; simp
  | cons r rest ih =>
    intro acc
    simp only [List.foldl_cons, List.filter_cons]
    by_cases hp : r.path ∈ tracked_paths
    · have hd : decide (r.path ∈ tracked_paths) = true := decide_eq_true hp
      rw [hd]
      have step : total_counts (countRun acc r) ≤ total_counts acc + 1 := by
        unfold countRun
        rw [if_pos hp]
        cases hk : branch_key r.head_branch with
        | none =>
          dsimp only
          omega
        | some b0 =>
          dsimp only
          by_cases hcs : r.conclusion = "success"
          · rw [if_pos hcs]
            cases b0 <;> simp [total_counts, PerBranch.set, PerBranch.get] <;> omega
          · rw [if_neg hcs]
            by_cases hcf : r.conclusion = "failure"
            · rw [if_pos hcf]
              cases b0 <;> simp [total_counts, PerBranch.set, PerBranch.get] <;> omega
            · rw [if_neg hcf]
              omega
      have := ih (countRun acc r)
      simp only [hd, if_true, List.length_cons]
      omega
    · have hd : decide (r.path ∈ tracked_paths) = false := decide_eq_false hp
      rw [hd]
      have hcr : countRun acc r = acc := by
        unfold countRun
        rw [if_neg hp]
      rw [hcr]
      exact ih acc

/-- The pagination loop swallows a transport error: the pages before the
error are flattened into the result and the rest is dropped. -/
theorem fetch_pages_swallow {α : Type} :
    ∀ (ps : List (List α)) (rest : List (Except Unit (List α))),
      fetch_pages (ps.map Except.ok ++ Except.error () :: rest) = ps.flatten := by
  intro ps
  induction ps with
  | nil => intro rest; rfl
  | cons p ps ih =>
    intro rest
    simp only [List.map_cons, List.cons_append, fetch_pages, List.flatten_cons]
    exact congrArg (fun l => p ++ l) (ih rest)

/-- Rewriting paths commutes with the previous_failures filter: the filter
reads only updated_at, conclusion and head_branch. -/
theorem prev_failures_map_path (runs : List Run) (pf : Run → String) (r : Run) :
    prev_failures (runs.map (fun x => { x with path := pf x })) { r with path := pf r } =
      (prev_failures runs r).map (fun x => { x with path := pf x }) := by
  unfold prev_failures
  rw [List.filter_map]
  rfl

/-- Rewriting paths commutes with the max fold: the fold reads only
updated_at. -/
theorem latest_failure_map_path (pf : Run → String) :
    ∀ (tl : List Run) (hd : Run),
      latest_failure { hd with path := pf hd } (tl.map (fun x => { x with path := pf x })) =
        { latest_failure hd tl with path := pf (latest_failure hd tl) } := by
  intro tl
  induction tl with
  | nil => intro hd; rfl
  | cons y ys ih =>
    intro hd
    show latest_failure
        (if str_lt hd.updated_at y.updated_at then { y with path := pf y }
          else { hd with path := pf hd }) (ys.map (fun x => { x with path := pf x })) = _
    by_cases h : str_lt hd.updated_at y.updated_at = true
    · rw [if_pos h]
      have hg : latest_failure hd (y :: ys) = latest_failure y ys := by
        show latest_failure (if str_lt hd.updated_at y.updated_at then y else hd) ys = _
        rw [if_pos h]
      rw [hg]
      exact ih y
    · rw [if_neg h]
      have hg : latest_failure hd (y :: ys) = latest_failure hd ys := by
        show latest_failure (if str_lt hd.updated_at y.updated_at then y else hd) ys = _
        rw [if_neg h]
      rw [hg]
      exact ih hd

/-- Rewriting paths does not change the contribution of a run to the
recovery samples: calculate_mttr never reads the path field. -/
theorem mttr_sample_map_path (runs : List Run) (pf : Run → String) (r : Run) :
    mttr_sample (runs.map (fun x => { x with path := pf x })) { r with path := pf r } =
      mttr_sample runs r := by
  unfold mttr_sample
  rw [prev_failures_map_path runs pf r]
  by_cases hc : r.conclusion = "success"
  · rw [if_pos hc, if_pos hc]
    cases hk : branch_key r.head_branch with
    | none => rfl
    | some b0 =>
      dsimp only
      cases hpf : prev_failures runs r with
      | nil => rfl
      | cons fh fs =>
        simp only [List.map_cons, latest_failure_map_path pf fs fh]
  · rw [if_neg hc, if_neg hc]

/-- Rewriting paths of every run leaves the whole recovery-time computation
unchanged. -/
theorem mttr_samples_map_path (runs : List Run) (pf : Run → String) :
    mttr_samples (runs.map (fun x => { x with path := pf x })) = mttr_samples runs := by
  unfold mttr_samples
  suffices haux : ∀ (l : List Run) (acc : PerBranch (List Int)),
      mttr_aux (runs.map (fun x => { x with path := pf x })) acc
          (l.map (fun x => { x with path := pf x })) =
        mttr_aux runs acc l by
    exact haux runs (PerBranch.const [])
  intro l
  induction l with
  | nil => intro acc; rfl
  | cons r rest ih =>
    intro acc
    simp only [List.map_cons, mttr_aux]
    rw [mttr_sample_map_path runs pf r]
    cases mttr_sample runs r with
    | error e => rfl
    | ok o =>
      cases o with
      | none => exact ih acc
      | some p => exact ih (acc.set p.1 (acc.get p.1 ++ [p.2]))

/-- A recorded lead-time sample names the branch of the path of some run of
the collection. -/
theorem first_lead_sample_branch (runs : List Run) (c : Commit) (b0 : BranchKey) (d : Int)
    (h : first_lead_sample runs c = some (b0, d)) :
    ∃ r ∈ runs, branch_paths r.path = some b0 := by
  unfold first_lead_sample at h
  cases hf : runs.find? (lead_match c.sha) with
  | none => rw [hf] at h; cases h
  | some r =>
    rw [hf] at h
    cases hp : parse_ts c.date with
    | none => rw [hp] at h; cases h
    | some tc =>
      rw [hp] at h
      dsimp only at h
      cases hbp : branch_paths r.path with
      | none => rw [hbp] at h; cases h
      | some b1 =>
        rw [hbp] at h
        cases hpt : parse_ts r.updated_at with
        | none => rw [hpt] at h; cases h
        | some tr =>
          rw [hpt] at h
          dsimp only at h
          injection h with h2
          simp only [Prod.mk.injEq] at h2
          exact ⟨r, List.mem_of_find?_eq_some hf, h2.1 ▸ hbp⟩

/-- C3: for every commit the lead-time calculator records at most one
duration sample, under at most one branch; the sample comes from the first
run in the given order with conclusion success, a classified path and a
matching head sha; a commit with no such run contributes nothing; the total
number of samples is at most the number of commits. -/
theorem c3_lead_sample_per_commit (commits : List Commit) (runs : List Run)
    (f : PerBranch (List Int)) (h : lead_samples commits runs = Except.ok f) (b : BranchKey) :
    f.get b = commits.filterMap (fun c =>
      (first_lead_sample runs c).bind (fun p => if p.1 = b then some p.2 else none)) ∧
    samples_total f ≤ commits.length := by
  refine ⟨lead_samples_ok commits runs f h b, ?_⟩
  have := lead_samples_aux_total runs commits (PerBranch.const []) f h
  simpa [samples_total, PerBranch.const] using this

/-- Witness for C3 at the one-commit one-run scenario. -/
theorem c3_lead_sample_per_commit_witness :
    lead_samples [c9_commit] [c9_run] = Except.ok ⟨[5], [], []⟩ ∧
    ((PerBranch.mk [5] [] [] : PerBranch (List Int)).get BranchKey.dev =
      [c9_commit].filterMap (fun c =>
        (first_lead_sample [c9_run] c).bind
          (fun p => if p.1 = BranchKey.dev then some p.2 else none)) ∧
     samples_total ⟨[5], [], []⟩ ≤ [c9_commit].length) :=
  ⟨rfl, c3_lead_sample_per_commit [c9_commit] [c9_run] ⟨[5], [], []⟩ rfl BranchKey.dev⟩

/-- C7: a negative lead time, arising when the matched run completed before
the commit was authored, is recorded as-is in the samples of the branch. -/
theorem c7_negative_lead_recorded (commits : List Commit) (runs : List Run)
    (f : PerBranch (List Int)) (c : Commit) (b : BranchKey) (d : Int)
    (h : lead_samples commits runs = Except.ok f) (hc : c ∈ commits)
    (hs : first_lead_sample runs c = some (b, d)) (hneg : d < 0) :
    d ∈ f.get b := by
  rw [lead_samples_ok commits runs f h b]
  rw [List.mem_filterMap]
  refine ⟨c, hc, ?_⟩
  rw [hs]
  simp

/-- Witness for C7: run completed at second 5, commit authored at second 10,
sample minus five. -/
theorem c7_negative_lead_recorded_witness :
    lead_samples [c7_commit] [c7_run] = Except.ok ⟨[-5], [], []⟩ ∧
    c7_commit ∈ [c7_commit] ∧
    first_lead_sample [c7_run] c7_commit = some (BranchKey.dev, -5) ∧
    (-5 : Int) < 0 ∧
    (-5 : Int) ∈ (PerBranch.mk [-5] [] [] : PerBranch (List Int)).get BranchKey.dev :=
  ⟨rfl, by simp, rfl, by decide,
    c7_negative_lead_recorded [c7_commit] [c7_run] ⟨[-5], [], []⟩ c7_commit BranchKey.dev (-5)
      rfl (by simp) rfl (by decide)⟩

/-- C6: the deployment counters sum to at most the number of runs passing
the tracked-path gate, and a run whose conclusion is neither success nor
failure never increments any counter: deleting it leaves the tally
unchanged. -/
theorem c6_deployment_count_bound (runs : List Run) (r : Run) (pre post : List Run)
    (h1 : r.conclusion ≠ "success") (h2 : r.conclusion ≠ "failure") :
    total_counts (deployment_stats runs) ≤
      (runs.filter (fun x => decide (x.path ∈ tracked_paths))).length ∧
    deployment_stats (pre ++ r :: post) = deployment_stats (pre ++ post) := by
  constructor
  · have := total_counts_aux runs (PerBranch.const ⟨0, 0⟩)
    simpa [total_counts, PerBranch.const, deployment_stats] using this
  · unfold deployment_stats
    rw [List.foldl_append, List.foldl_append, List.foldl_cons, countRun_other _ r h1 h2]

/-- Witness for C6 with a cancelled run. -/
theorem c6_deployment_count_bound_witness :
    c6_cancelled.conclusion ≠ "success" ∧ c6_cancelled.conclusion ≠ "failure" ∧
    (total_counts (deployment_stats [c9_run, c6_cancelled]) ≤
      ([c9_run, c6_cancelled].filter (fun x => decide (x.path ∈ tracked_paths))).length ∧
     deployment_stats ([c9_run] ++ c6_cancelled :: []) = deployment_stats ([c9_run] ++ [])) :=
  ⟨by decide, by decide,
    c6_deployment_count_bound [c9_run, c6_cancelled] c6_cancelled [c9_run] []
      (by decide) (by decide)⟩

/-- C5: a branch referenced by no event — no run mapping to it through the
path table and none carrying it as head_branch — still has an entry in every
calculator output: zero success count, zero failure count, empty sample lists
and mean zero for both lead time and recovery time; the mean of the empty
sample set is the literal zero, not an error. -/
theorem c5_zero_branch_all_zero (commits : List Commit) (runs : List Run)
    (b : BranchKey) (f g : PerBranch (List Int))
    (hev : ∀ r ∈ runs, branch_paths r.path ≠ some b ∧ branch_key r.head_branch ≠ some b)
    (hf : lead_samples commits runs = Except.ok f)
    (hg : mttr_samples runs = Except.ok g) :
    (deployment_stats runs).get b = ⟨0, 0⟩ ∧
    f.get b = [] ∧ mean_or_zero (f.get b) = 0 ∧
    g.get b = [] ∧ mean_or_zero (g.get b) = 0 := by
  have hlead : f.get b = [] := by
    rw [lead_samples_ok commits runs f hf b]
    rw [List.filterMap_eq_nil_iff]
    intro c hc
    cases hfl : first_lead_sample runs c with
    | none => rfl
    | some p =>
      obtain ⟨b0, d⟩ := p
      obtain ⟨r, hr, hbp⟩ := first_lead_sample_branch runs c b0 d hfl
      have hb0 : b0 ≠ b := by
        intro hbb
        exact (hev r hr).1 (hbb ▸ hbp)
      simp [hb0]
  have hmttr : g.get b = [] := by
    rw [mttr_samples_ok runs g hg b]
    rw [List.filterMap_eq_nil_iff]
    intro r hr
    unfold spec_recovery_sample
    rw [if_neg]
    intro hcon
    exact (hev r hr).2 hcon.2
  refine ⟨?_, hlead, ?_, hmttr, ?_⟩
  · rw [deployment_stats_get]
    have hs : runs.filter (counted_pred b "success") = [] := by
      rw [List.filter_eq_nil_iff]
      intro x hx
      simp [counted_pred, (hev x hx).2]
    have hfl : runs.filter (counted_pred b "failure") = [] := by
      rw [List.filter_eq_nil_iff]
      intro x hx
      simp [counted_pred, (hev x hx).2]
    rw [hs, hfl]
    rfl
  · rw [hlead]
    rfl
  · rw [hmttr]
    rfl

/-- Witness for C5: only dev events, the prod branch reports all zeros. -/
theorem c5_zero_branch_all_zero_witness :
    (∀ r ∈ [c9_run], branch_paths r.path ≠ some BranchKey.prod ∧
      branch_key r.head_branch ≠ some BranchKey.prod) ∧
    lead_samples [c9_commit] [c9_run] = Except.ok ⟨[5], [], []⟩ ∧
    mttr_samples [c9_run] = Except.ok ⟨[], [], []⟩ ∧
    ((deployment_stats [c9_run]).get BranchKey.prod = ⟨0, 0⟩ ∧
     (PerBranch.mk [5] [] [] : PerBranch (List Int)).get BranchKey.prod = [] ∧
     mean_or_zero ((PerBranch.mk [5] [] [] : PerBranch (List Int)).get BranchKey.prod) = 0 ∧
     (PerBranch.mk [] [] [] : PerBranch (List Int)).get BranchKey.prod = [] ∧
     mean_or_zero ((PerBranch.mk [] [] [] : PerBranch (List Int)).get BranchKey.prod) = 0) :=
  ⟨by decide, rfl, rfl,
    c5_zero_branch_all_zero [c9_commit] [c9_run] BranchKey.prod ⟨[5], [], []⟩ ⟨[], [], []⟩
      (by decide) rfl rfl⟩

/-- C4: the recovery samples of a branch pair each success run of that
head_branch with the latest strictly earlier failure of the same
head_branch; the Python max resolves ties to the first encountered element,
stated through first_max_failure; the scenario of failures at seconds 10 and
20 followed by a success at second 30 on one branch yields the single sample
ten. -/
theorem c4_recovery_latest_failure (runs : List Run) (g : PerBranch (List Int))
    (h : mttr_samples runs = Except.ok g) (b : BranchKey) (hd : Run) (tl : List Run) :
    g.get b = runs.filterMap (spec_recovery_sample runs b) ∧
    first_max_failure (hd :: tl) = some (latest_failure hd tl) ∧
    mttr_samples c4_runs = Except.ok ⟨[], [], [10]⟩ :=
  ⟨mttr_samples_ok runs g h b, latest_failure_first_max hd tl, rfl⟩

/-- Witness for C4 at the concrete failure-failure-success scenario. -/
theorem c4_recovery_latest_failure_witness :
    mttr_samples c4_runs = Except.ok ⟨[], [], [10]⟩ ∧
    ((PerBranch.mk [] [] [10] : PerBranch (List Int)).get BranchKey.prod =
        c4_runs.filterMap (spec_recovery_sample c4_runs BranchKey.prod) ∧
      first_max_failure (c9_fail :: [c9_succ]) = some (latest_failure c9_fail [c9_succ]) ∧
      mttr_samples c4_runs = Except.ok ⟨[], [], [10]⟩) :=
  ⟨rfl, c4_recovery_latest_failure c4_runs ⟨[], [], [10]⟩ rfl BranchKey.prod c9_fail [c9_succ]⟩

/-- C8: one cycle is idempotent on the gauge state: running the three
calculators a second time on the same input collections rewrites every gauge
with the same value, because the calculators are pure functions of the two
collections and the gauges are overwritten, not accumulated. -/
theorem c8_cycle_idempotent (commits : List Commit) (runs : List Run) (g : GaugeState) :
    update_metrics commits runs (update_metrics commits runs g) =
      update_metrics commits runs g := by
  cases h1 : lead_samples commits runs with
  | error e =>
    simp [update_metrics, calculate_deployment_counter, calculate_lead_time_for_changes,
      h1, set_deploy]
  | ok ls =>
    cases h2 : mttr_samples runs with
    | error e =>
      simp [update_metrics, calculate_deployment_counter, calculate_lead_time_for_changes,
        calculate_mttr, h1, h2, set_deploy, set_lead]
    | ok ms =>
      simp [update_metrics, calculate_deployment_counter, calculate_lead_time_for_changes,
        calculate_mttr, h1, h2, set_deploy, set_lead, set_mttr]

/-- C9: end-to-end scenarios.  One commit a at second 0 and one successful
dev run at second 5 built from it give dev success count 1, dev mean lead
time 5 and dev mean recovery time 0.  A prod failure at second 0 followed by
a prod success at second 100 gives prod mean recovery time 100, prod success
count 1 and prod failure count 1. -/
theorem c9_end_to_end_scenarios :
    (update_metrics [c9_commit] [c9_run] gauges_zero).deploy_success.get BranchKey.dev = 1 ∧
    (update_metrics [c9_commit] [c9_run] gauges_zero).lead_time.get BranchKey.dev = 5 ∧
    (update_metrics [c9_commit] [c9_run] gauges_zero).mttr.get BranchKey.dev = 0 ∧
    (update_metrics [] [c9_fail, c9_succ] gauges_zero).mttr.get BranchKey.prod = 100 ∧
    (update_metrics [] [c9_fail, c9_succ] gauges_zero).deploy_success.get BranchKey.prod = 1 ∧
    (update_metrics [] [c9_fail, c9_succ] gauges_zero).deploy_failure.get BranchKey.prod = 1 := by
  refine ⟨?_, ?_, ?_, ?_, ?_, ?_⟩
  · have h : (update_metrics [c9_commit] [c9_run] gauges_zero).deploy_success.get BranchKey.dev =
        ((1 : Nat) : Rat) := rfl
    rw [h]
    norm_num
  · have h : (update_metrics [c9_commit] [c9_run] gauges_zero).lead_time.get BranchKey.dev =
        ((5 : Int) : Rat) / ((1 : Nat) : Rat) := rfl
    rw [h]
    norm_num
  · have h : (update_metrics [c9_commit] [c9_run] gauges_zero).mttr.get BranchKey.dev =
        (0 : Rat) := rfl
    rw [h]
  · have h : (update_metrics [] [c9_fail, c9_succ] gauges_zero).mttr.get BranchKey.prod =
        ((100 : Int) : Rat) / ((1 : Nat) : Rat) := rfl
    rw [h]
    norm_num
  · have h : (update_metrics [] [c9_fail, c9_succ] gauges_zero).deploy_success.get
        BranchKey.prod = ((1 : Nat) : Rat) := rfl
    rw [h]
    norm_num
  · have h : (update_metrics [] [c9_fail, c9_succ] gauges_zero).deploy_failure.get
        BranchKey.prod = ((1 : Nat) : Rat) := rfl
    rw [h]
    norm_num

/-- C10: when the lead-time calculator raises, the cycle ends with only the
deployment gauges rewritten from the new data, while the lead-time and MTTR
gauges keep their previous values: the published snapshot is not atomic
across the three metric families. -/
theorem c10_partial_update_on_raise (commits : List Commit) (runs : List Run)
    (g : GaugeState) (e : Unit) (h : lead_samples commits runs = Except.error e) :
    update_metrics commits runs g = calculate_deployment_counter runs g ∧
    (update_metrics commits runs g).lead_time = g.lead_time ∧
    (update_metrics commits runs g).mttr = g.mttr ∧
    (update_metrics commits runs g).deploy_success =
      (deployment_stats runs).map (fun c => (c.success : Rat)) := by
  have h1 : update_metrics commits runs g = calculate_deployment_counter runs g := by
    unfold update_metrics calculate_lead_time_for_changes
    rw [h]
  refine ⟨h1, ?_, ?_, ?_⟩ <;> rw [h1] <;> rfl

/-- Witness for C10: a commit with an unparseable author date next to a
well-formed successful dev run, starting from gauges all seven. -/
theorem c10_partial_update_on_raise_witness :
    lead_samples c10_commits [c9_run] = Except.error () ∧
    (update_metrics c10_commits [c9_run] gauges_seven =
        calculate_deployment_counter [c9_run] gauges_seven ∧
      (update_metrics c10_commits [c9_run] gauges_seven).lead_time = gauges_seven.lead_time ∧
      (update_metrics c10_commits [c9_run] gauges_seven).mttr = gauges_seven.mttr ∧
      (update_metrics c10_commits [c9_run] gauges_seven).deploy_success =
        (deployment_stats [c9_run]).map (fun c => (c.success : Rat))) :=
  ⟨rfl, c10_partial_update_on_raise c10_commits [c9_run] gauges_seven () rfl⟩

/-- C1 counterexample: a transport error on the first page of both fetches
is swallowed into empty collections, the cycle is not aborted, and the
previously published gauges are overwritten, not left unchanged. -/
theorem c1_counterexample_transport_swallowed :
    fetch_pages (α := Run) [Except.error ()] = [] ∧
    fetch_pages (α := Commit) [Except.error ()] = [] ∧
    update_metrics_fetch [Except.error ()] [Except.error ()] gauges_seven ≠ gauges_seven ∧
    (update_metrics_fetch [Except.error ()] [Except.error ()]
        gauges_seven).deploy_success.get BranchKey.dev = 0 ∧
    gauges_seven.deploy_success.get BranchKey.dev = 7 := by
  refine ⟨rfl, rfl, ?_, ?_, rfl⟩
  · intro hcon
    have h0 : (update_metrics_fetch [Except.error ()] [Except.error ()]
        gauges_seven).deploy_success.get BranchKey.dev = ((0 : Nat) : Rat) := rfl
    rw [hcon] at h0
    have h7 : gauges_seven.deploy_success.get BranchKey.dev = (7 : Rat) := rfl
    rw [h7] at h0
    norm_num at h0
  · have h0 : (update_metrics_fetch [Except.error ()] [Except.error ()]
        gauges_seven).deploy_success.get BranchKey.dev = ((0 : Nat) : Rat) := rfl
    rw [h0]
    norm_num

/-- C1 amended: a transport failure during pagination is logged and
swallowed: the fetch returns the pages accumulated before the error, the
cycle proceeds on this partial, possibly empty, data and the gauges are
recomputed from it, overwriting the previously published values. -/
theorem c1_amended_fetch_swallows_error (ps : List (List Commit))
    (rest : List (Except Unit (List Commit))) (qs : List (List Run))
    (rest2 : List (Except Unit (List Run))) (g : GaugeState) :
    fetch_pages (ps.map Except.ok ++ Except.error () :: rest) = ps.flatten ∧
    fetch_pages (qs.map Except.ok ++ Except.error () :: rest2) = qs.flatten ∧
    update_metrics_fetch (qs.map Except.ok ++ Except.error () :: rest2)
        (ps.map Except.ok ++ Except.error () :: rest) g =
      update_metrics ps.flatten qs.flatten g := by
  refine ⟨fetch_pages_swallow ps rest, fetch_pages_swallow qs rest2, ?_⟩
  unfold update_metrics_fetch
  rw [fetch_pages_swallow, fetch_pages_swallow]

/-- C2 counterexample: a failure and a success on head_branch dev whose
workflow path is outside the table still produce a dev recovery sample, and
a successful run whose path maps to dev but whose head_branch is prod is
counted under prod: branches are not derived solely from the path table and
untracked paths do participate. -/
theorem c2_counterexample_head_branch :
    mttr_samples c2_untracked_runs = Except.ok ⟨[20], [], []⟩ ∧
    (deployment_stats [c2_mixed_run]).get BranchKey.prod = ⟨1, 0⟩ ∧
    (deployment_stats [c2_mixed_run]).get BranchKey.dev = ⟨0, 0⟩ :=
  ⟨rfl, rfl, rfl⟩

/-- C2 amended: only the lead-time calculator derives the branch from the
path table.  The deployment counter counts a run only when its path passes
the tracked-path gate but aggregates it under the head_branch field, and the
recovery-time calculator never consults the path at all: rewriting every
path arbitrarily leaves its output unchanged. -/
theorem c2_amended_branch_sources (runs : List Run) (b : BranchKey) (pf : Run → String) :
    (deployment_stats runs).get b =
      ⟨(runs.filter (counted_pred b "success")).length,
       (runs.filter (counted_pred b "failure")).length⟩ ∧
    mttr_samples (runs.map (fun x => { x with path := pf x })) = mttr_samples runs :=
  ⟨deployment_stats_get runs b, mttr_samples_map_path runs pf⟩
